import Mathlib

/-!
Verification of the protolake bundler/publisher tools.

The Python sources under `src/main/resources/templates/tools/` are embedded
shallowly: Python strings become `List Char`, the process environment becomes
an explicit record of optional variables, and the filesystem / external
processes become explicit parameters (existence predicates, success flags).
Every definition mirrors one Python function and keeps its name, qualified by
a namespace per source file.
-/

namespace Protolake

/-- Python strings are modelled as lists of characters. -/
abbrev Str := List Char

/-- Coerce a Lean string literal to the model type. -/
def pstr (s : String) : Str := s.toList

/-- Model of Python's `hay.find(needle)`: the index of the first
occurrence of `needle` as a contiguous substring of `hay`, `none` when absent
(Python returns `-1`). -/
def findSub (needle : Str) (hay : Str) : Option Nat :=
  if needle.isPrefixOf hay then some 0
  else
    match hay with
    | [] => none
    | _ :: t => (findSub needle t).map (· + 1)

/-- Python's `needle in hay` substring test. -/
def containsSub (needle : Str) (hay : Str) : Bool :=
  (findSub needle hay).isSome

/-- Python's `s.split(sep, 1)`: the part before and the part after the first
occurrence of `sep`, when `sep` occurs in `s`. -/
def splitOnFirst (sep : Str) (s : Str) : Option (Str × Str) :=
  (findSub sep s).map fun i => (s.take i, s.drop (i + sep.length))

/-- Fuel-driven worker for `splitOnSub`; the fuel bounds the number of
separator occurrences, `hay.length` always suffices. -/
def splitOnSubAux (sep : Str) : Nat → Str → List Str
  | 0, s => [s]
  | fuel + 1, s =>
    match findSub sep s with
    | none => [s]
    | some i => s.take i :: splitOnSubAux sep fuel (s.drop (i + sep.length))

/-- Python's `s.split(sep)` for a non-empty separator: the chunks of `s`
between successive leftmost non-overlapping occurrences of `sep`. -/
def splitOnSub (sep : Str) (s : Str) : List Str :=
  if sep = [] then [s] else splitOnSubAux sep s.length s

/-- Python's `sep.join(parts)`. -/
def joinWith (sep : Str) : List Str → Str
  | [] => []
  | [x] => x
  | x :: (y :: ys) => x ++ sep ++ joinWith sep (y :: ys)

/-- Python's `s.strip()`: remove leading and trailing whitespace. -/
def pyStrip (s : Str) : Str :=
  ((s.dropWhile Char.isWhitespace).reverse.dropWhile Char.isWhitespace).reverse

/-- Python's `a or b` applied to strings: `a` when non-empty, else `b`. -/
def pyOr (a b : Str) : Str := if a = [] then b else a

/-- Reading an environment variable with a default:
`os.environ.get(VAR, default)`. -/
def envGet (v : Option Str) (dflt : Str) : Str := v.getD dflt

namespace NpmBundler

/-- Model of `npm_bundler.py:strip_bazel_path`: drop everything through the first
`/bin/` of a `bazel-out/` path, else drop a leading `external/`, then strip
leading `../` segments.  The `../` loop is modelled with fuel: each round
removes three characters, so `p.length` rounds always terminate the loop. -/
def stripDotsAux : Nat → Str → Str
  | 0, p => p
  | fuel + 1, p =>
    if (pstr "../").isPrefixOf p then stripDotsAux fuel (p.drop 3) else p

/-- The `while path.startswith('../')` loop shared by the bundlers. -/
def stripDots (p : Str) : Str := stripDotsAux p.length p

/-- The `bazel-out//bin` / `external/` branch of `strip_bazel_path`
(shared verbatim by `npm_bundler.py` and `wheel_builder.py`). -/
def stripBuildMarkers (p : Str) : Str :=
  if (pstr "bazel-out/").isPrefixOf p then
    match findSub (pstr "/bin/") p with
    | some i => if 0 < i then p.drop (i + 5) else p
    | none => p
  else if (pstr "external/").isPrefixOf p then p.drop 9
  else p

/-- Model of `npm_bundler.py:strip_bazel_path` in full. -/
def strip_bazel_path (p : Str) : Str := stripDots (stripBuildMarkers p)

end NpmBundler

namespace WheelBuilder

/-- The `_virtual_imports` branch of `wheel_builder.py:strip_bazel_path`:
`parts = path.split('_virtual_imports/')`; when the marker is present, the
result is `parts[1]` with its first segment (the import alias) removed,
provided that segment is non-empty.  Note `parts[1]` is only the chunk
between the first and second occurrence of the marker. -/
def stripVirtual (p : Str) : Str :=
  match splitOnSub (pstr "_virtual_imports/") p with
  | _ :: afterVirtual :: _ =>
    match findSub (pstr "/") afterVirtual with
    | some slashIdx => if 0 < slashIdx then afterVirtual.drop (slashIdx + 1) else p
    | none => p
  | _ => p

/-- Model of `wheel_builder.py:strip_bazel_path`: the npm bundler's marker stripping
followed by `_virtual_imports` handling. -/
def strip_bazel_path (p : Str) : Str :=
  stripVirtual (NpmBundler.stripDots (NpmBundler.stripBuildMarkers p))

end WheelBuilder

/-!
### Version placeholder resolution

Shared by `npm_bundler.py`, `wheel_builder.py` and `jar_bundler_generated.py`
(`main`, the block after `parse_args`): a `--version` argument of the shape
`$\x7bVAR\x7d` or `$\x7bVAR:-default\x7d` is resolved against the process
environment, and any `$\x7b` remaining afterwards forces the fixed default
`1.0.0` together with a warning.
-/

/-- Marker opening a placeholder: the two characters dollar, open-brace. -/
def phOpen : Str := ['$', '{']

/-- Marker closing a placeholder: the close-brace character. -/
def phClose : Str := ['}']

/-- The first step of version handling: the
`if args.version.startswith('$\x7b') and args.version.endswith('\x7d')` block. -/
def resolveStep1 (v : Str) (env : Str → Option Str) : Str :=
  if phOpen.isPrefixOf v && phClose.isSuffixOf v then
    let content := (v.drop 2).dropLast
    match splitOnFirst (pstr ":-") content with
    | some (varName, dfltValue) => (env varName).getD dfltValue
    | none => (env content).getD (pstr "1.0.0")
  else v

/-- Full version handling: step one, then the
`if '$\x7b' in args.version` fallback to `1.0.0`.  The boolean records whether
the fallback warning was printed; the function is total, so version handling
never fails the build. -/
def resolveVersion (v : Str) (env : Str → Option Str) : Str × Bool :=
  let v1 := resolveStep1 v env
  if containsSub phOpen v1 then (pstr "1.0.0", true) else (v1, false)

/-!
### Publish dispatch (`npm_publisher_generated.py:publish_npm_package`)

The environment is a record of the optional variables the function reads, the
world is a record of the outcomes of the external effects it triggers
(`tar`, `npm link`, `npm publish`, `pkg_editor.install_package_to_workspace`,
the `os.path.exists` check on each target's `package.json`).  The result
captures the returned boolean, the diagnostic lines printed, and the targets
into which the package was successfully installed.
-/

/-- The environment variables read by `publish_npm_package`. -/
structure NpmEnv where
  npmPublishMode : Option Str
  jsTargets : Option Str
  npmRegistryUrl : Option Str
  npmRegistryToken : Option Str
  registryToken : Option Str

/-- Outcomes of the external effects of `publish_npm_package`. -/
structure NpmWorld where
  extractOk : Bool
  linkOk : Bool
  localPublishOk : Bool
  hasPackageJson : Str → Bool
  installOk : Str → Bool
  registryPublishOk : Bool

/-- Result of `publish_npm_package`: the returned boolean, the diagnostics
printed, and the list of workspace targets successfully installed into. -/
structure PublishResult where
  ok : Bool
  msgs : List Str
  installed : List Str
deriving DecidableEq

/-- Parsing of `JS_TARGETS`:
`[t.strip() for t in s.replace('\n', ',').split(',') if t.strip()]`. -/
def parseTargets (s : Str) : List Str :=
  ((splitOnSub (pstr ",") (s.map fun c => if c = '\n' then ',' else c)).map
      pyStrip).filter (· ≠ [])

namespace NpmPublisher

/-- The `workspace` loop of `publish_npm_package`: a target without a
`package.json` is warned about and skipped; otherwise the package is
installed and a failed install flips `all_ok` to `False`. -/
def workspaceLoop (w : NpmWorld) : List Str → PublishResult
  | [] => ⟨true, [], []⟩
  | t :: rest =>
    let r := workspaceLoop w rest
    if !w.hasPackageJson t then
      ⟨r.ok, (pstr "Warning: no package.json at " ++ t ++ pstr ", skipping") :: r.msgs, r.installed⟩
    else if w.installOk t then
      ⟨r.ok, r.msgs, t :: r.installed⟩
    else
      ⟨false, (pstr "Failed to install to: " ++ t) :: r.msgs, r.installed⟩

/-- Model of `npm_publisher_generated.py:publish_npm_package`, after the coordinates
have been read: the mode-keyed dispatch over
`skip | link | local-registry | file | pack | workspace | registry`. -/
def publish_npm_package (env : NpmEnv) (w : NpmWorld) : PublishResult :=
  if !w.extractOk then ⟨false, [pstr "Error extracting bundle"], []⟩
  else
    let mode := envGet env.npmPublishMode (pstr "link")
    if mode = pstr "skip" then ⟨true, [], []⟩
    else if mode = pstr "link" then
      if w.linkOk then ⟨true, [], []⟩ else ⟨false, [pstr "Failed to link"], []⟩
    else if mode = pstr "local-registry" then
      if w.localPublishOk then ⟨true, [], []⟩
      else ⟨false, [pstr "Failed to publish"], []⟩
    else if mode = pstr "file" then ⟨true, [], []⟩
    else if mode = pstr "pack" then ⟨true, [], []⟩
    else if mode = pstr "workspace" then
      let targetsStr := envGet env.jsTargets []
      if pyStrip targetsStr = [] then
        ⟨true, [pstr "Warning: NPM_PUBLISH_MODE=workspace but JS_TARGETS not set"], []⟩
      else workspaceLoop w (parseTargets targetsStr)
    else if mode = pstr "registry" then
      let registryUrl := envGet env.npmRegistryUrl []
      let token := pyOr (envGet env.npmRegistryToken []) (envGet env.registryToken [])
      if registryUrl = [] then
        ⟨false, [pstr "Error: NPM_REGISTRY_URL env var required for registry mode"], []⟩
      else if token = [] then
        ⟨false, [pstr "Error: NPM_REGISTRY_TOKEN or REGISTRY_TOKEN env var required for registry mode"], []⟩
      else if w.registryPublishOk then ⟨true, [], []⟩
      else ⟨false, [pstr "Failed to publish"], []⟩
    else ⟨false, [pstr "Unknown publish mode: " ++ mode], []⟩

end NpmPublisher

/-!
### The version ledger (`publisher_utils_generated.py`)

`update_local_maven_metadata` reads the stored version list (a set), inserts
the new version, and rewrites the document via `create_maven_metadata`, which
lists `sorted(versions)` and sets both `latest` and `release` to the version
just recorded.  Versions are compared as Python compares strings: by code
point, lexicographically.
-/

/-- Python's `<` on single characters: comparison of code points. -/
def charLtB (a b : Char) : Bool := a.toNat < b.toNat

/-- Python's `<` on strings: lexicographic comparison by code point. -/
def strLtB : Str → Str → Bool
  | [], [] => false
  | [], _ :: _ => true
  | _ :: _, [] => false
  | a :: as, b :: bs =>
    if charLtB a b then true else if charLtB b a then false else strLtB as bs

/-- Insert a version into a sorted duplicate-free list, keeping it sorted and
duplicate-free. -/
def insertV (v : Str) : List Str → List Str
  | [] => [v]
  | x :: xs =>
    if v = x then x :: xs
    else if strLtB v x then v :: x :: xs
    else x :: insertV v xs

/-- Python's `sorted(set(l))`: insertion sort with duplicate removal. -/
def sortDedup (l : List Str) : List Str := l.foldr insertV []

/-- The ledger document as `create_maven_metadata` persists it: the sorted
version list and the `latest` / `release` pointers. -/
structure MavenLedger where
  versions : List Str
  latest : Str
  release : Str
deriving DecidableEq

namespace PublisherUtils

/-- Model of `publisher_utils_generated.py:update_local_maven_metadata`: load the
stored versions when the metadata file exists (else start empty), add the new
version (set semantics), and rewrite with `sorted(versions)` and both
pointers equal to the version just recorded. -/
def update_local_maven_metadata (st : Option MavenLedger) (v : Str) : MavenLedger :=
  let stored := match st with
    | none => []
    | some l => l.versions
  ⟨sortDedup (v :: stored), v, v⟩

end PublisherUtils

/-!
### Staging loops (`wheel_builder.py:main`, `proto_loader_publisher_generated.py`)

The filesystem is an existence predicate on source paths.  The wheel
builder's Python-file loop checks `os.path.exists` and only warns on a
missing file; `create_proto_loader_package` copies without any check, so a
missing source raises out of the loop (modelled as `Except.error`).
-/

namespace WheelBuilder

/-- The `for py_file in args.py_files` loop of `wheel_builder.py:main`:
existing files are copied to their stripped destination, missing files
produce a warning and are skipped.  Returns the copied
`(source, destination)` pairs and the warnings, in loop order. -/
def copyPyFiles (fs : Str → Bool) : List Str → List (Str × Str) × List Str
  | [] => ([], [])
  | f :: rest =>
    let r := copyPyFiles fs rest
    if fs f then ((f, strip_bazel_path f) :: r.1, r.2)
    else (r.1, (pstr "  WARNING: Python file not found: " ++ f) :: r.2)

end WheelBuilder

namespace ProtoLoaderPublisher

/-- Source side of a `src=dest` pair
(`create_proto_loader_package`, the `'=' in source_pair` branch). -/
def specSrc (s : Str) : Str :=
  match splitOnFirst (pstr "=") s with
  | some (src, _) => src
  | none => s

/-- Destination side of a `src=dest` pair; a bare spec is its own
destination. -/
def specDest (s : Str) : Str :=
  match splitOnFirst (pstr "=") s with
  | some (_, dest) => dest
  | none => s

/-- The copy loop of `create_proto_loader_package`: `shutil.copy2` is called
without any existence check, so the first missing source raises
(`FileNotFoundError`) and aborts the whole packaging operation. -/
def copyProtoSources (fs : Str → Bool) : List Str → Except Str (List (Str × Str))
  | [] => .ok []
  | s :: rest =>
    if fs (specSrc s) then
      (copyProtoSources fs rest).map ((specSrc s, specDest s) :: ·)
    else .error (specSrc s)

end ProtoLoaderPublisher

/-!
### Barrel files (`npm_bundler.py:create_subdir_index`)

`js_files = list(subdir.rglob('*.js'))` enumerates in filesystem order; the
enumeration is therefore an input of the model.  Each file yields one
`export * as name from 'module';` line and the lines are joined with
newlines, in enumeration order — no sorting happens anywhere.
-/

namespace NpmBundler

/-- Model of `PurePath.with_suffix('')`: remove the extension of the final path
segment; a name whose only dot is leading or trailing has no extension
(CPython requires the dot index `i` to satisfy `0 < i < len(name) - 1`). -/
def withSuffixEmpty (p : Str) : Str :=
  let nameStart := match findSub (pstr "/") p.reverse with
    | some j => p.length - 1 - j + 1
    | none => 0
  let name := p.drop nameStart
  match findSub (pstr ".") name.reverse with
  | some j =>
    let k := name.length - 1 - j
    if 0 < k && k < name.length - 1 then p.take (nameStart + k) else p
  | none => p

/-- One line of the generated `index.js`:
`export * as {name} from '{module}';` with `/` and backslash replaced by
underscore in the export name and backslash by `/` in the module path. -/
def exportLine (rel : Str) : Str :=
  let exportName := rel.map fun c => if c = '/' || c = '\\' then '_' else c
  let modulePath := pstr "./" ++ rel.map fun c => if c = '\\' then '/' else c
  pstr "export * as " ++ exportName ++ pstr " from '" ++ modulePath ++ pstr "';"

/-- Model of `npm_bundler.py:create_subdir_index`, content of the written `index.js`:
one export line per enumerated `.js` file, joined by newlines, in the order
`rglob` returned them. -/
def create_subdir_index (jsFiles : List Str) : Str :=
  joinWith (pstr "\n") (jsFiles.map fun f => exportLine (withSuffixEmpty f))

end NpmBundler

/-- The sortedness invariant of the stored version list. -/
def SortedV (l : List Str) : Prop := List.Chain' (fun a b => strLtB a b = true) l

/-- Versions stored in an optional ledger state (empty when the metadata
file does not exist yet). -/
def ledgerVersions (st : Option MavenLedger) : List Str :=
  match st with
  | none => []
  | some l => l.versions

/-- Environment with `FOO=9.9.9` and nothing else, used as a concrete
process environment. -/
def envFoo : Str → Option Str :=
  fun s => if s = pstr "FOO" then some (pstr "9.9.9") else none

/-- Concrete environment of a workspace publish with two targets. -/
def envWs2 : NpmEnv :=
  ⟨some (pstr "workspace"), some (pstr "t1,t2"), none, none, none⟩

/-- Concrete world in which target `t1` has a `package.json`, target `t2`
does not, and every attempted install succeeds. -/
def worldWs2 : NpmWorld :=
  ⟨true, true, true, (fun t => t = pstr "t1"), (fun _ => true), true⟩

/-- Concrete environment of a workspace publish with `JS_TARGETS` unset. -/
def envWsUnset : NpmEnv :=
  ⟨some (pstr "workspace"), none, none, none, none⟩

/-- Concrete world in which every external effect succeeds. -/
def worldTrivial : NpmWorld :=
  ⟨true, true, true, (fun _ => true), (fun _ => true), true⟩

/-! ### Helper lemmas on the string machinery -/

theorem prefix_length_le {a p : Str} (h : a.isPrefixOf p = true) :
    a.length ≤ p.length :=
  (List.isPrefixOf_iff_prefix.mp h).length_le

theorem findSub_nil {sep : Str} (h : sep ≠ []) : findSub sep [] = none := by
  cases sep with
  | nil => exact absurd rfl h
  | cons c cs => simp [findSub, List.isPrefixOf]

theorem findSub_some_le {needle hay : Str} {i : Nat}
    (h : findSub needle hay = some i) : i + needle.length ≤ hay.length := by
  induction hay generalizing i with
  | nil =>
    by_cases hp : needle.isPrefixOf [] = true
    · rw [findSub, if_pos hp] at h
      cases h
      simpa using prefix_length_le hp
    · rw [findSub, if_neg hp] at h
      cases h
  | cons a t ih =>
    by_cases hp : needle.isPrefixOf (a :: t) = true
    · rw [findSub, if_pos hp] at h
      cases h
      simpa using prefix_length_le hp
    · rw [findSub, if_neg hp] at h
      match h' : findSub needle t with
      | none => rw [h'] at h; cases h
      | some j =>
        rw [h'] at h
        simp only [Option.map_some'] at h
        cases h
        have := ih h'
        simp only [List.length_cons]
        omega

theorem findSub_of_not_mem {c : Char} {s : Str} (h : c ∉ s) :
    findSub [c] s = none := by
  induction s with
  | nil => simp [findSub, List.isPrefixOf]
  | cons b t ih =>
    have hcb : ¬ c = b := fun hc => h (hc ▸ List.mem_cons_self _ _)
    have hct : c ∉ t := fun hc => h (List.mem_cons_of_mem _ hc)
    rw [findSub, if_neg (by simp [List.isPrefixOf, hcb]), ih hct]
    rfl

theorem findSub_single_of_prefix {c : Char} {a b : Str} (h : c ∉ a) :
    findSub [c] (a ++ c :: b) = some a.length := by
  induction a with
  | nil => simp [findSub, List.isPrefixOf]
  | cons x xs ih =>
    have hcx : ¬ c = x := fun hc => h (hc ▸ List.mem_cons_self _ _)
    have hcxs : c ∉ xs := fun hc => h (List.mem_cons_of_mem _ hc)
    rw [List.cons_append, findSub, if_neg (by simp [List.isPrefixOf, hcx]),
      ih hcxs]
    rfl

theorem splitOnSubAux_of_none {sep : Str} {s : Str}
    (h : findSub sep s = none) :
    ∀ fuel, splitOnSubAux sep fuel s = [s] := by
  intro fuel
  cases fuel with
  | zero => rfl
  | succ n => rw [splitOnSubAux, h]

theorem splitOnSubAux_congr {sep : Str} (hne : sep ≠ []) :
    ∀ f₁ f₂ s, s.length ≤ f₁ → s.length ≤ f₂ →
      splitOnSubAux sep f₁ s = splitOnSubAux sep f₂ s := by
  have hlen : 1 ≤ sep.length := by
    cases sep with
    | nil => exact absurd rfl hne
    | cons c cs => simp
  intro f₁
  induction f₁ with
  | zero =>
    intro f₂ s h₁ h₂
    have hs : s = [] := List.eq_nil_of_length_eq_zero (Nat.le_zero.mp h₁)
    subst hs
    rw [splitOnSubAux_of_none (findSub_nil hne), splitOnSubAux_of_none (findSub_nil hne)]
  | succ n ih =>
    intro f₂ s h₁ h₂
    cases f₂ with
    | zero =>
      have hs : s = [] := List.eq_nil_of_length_eq_zero (Nat.le_zero.mp h₂)
      subst hs
      rw [splitOnSubAux_of_none (findSub_nil hne), splitOnSubAux_of_none (findSub_nil hne)]
    | succ m =>
      cases hf : findSub sep s with
      | none => rw [splitOnSubAux_of_none hf, splitOnSubAux_of_none hf]
      | some i =>
        rw [splitOnSubAux, splitOnSubAux, hf]
        show List.take i s :: splitOnSubAux sep n (s.drop (i + sep.length))
            = List.take i s :: splitOnSubAux sep m (s.drop (i + sep.length))
        have hle := findSub_some_le hf
        have hdrop : (s.drop (i + sep.length)).length = s.length - (i + sep.length) :=
          List.length_drop _ _
        rw [ih m _ (by omega) (by omega)]

theorem splitOnSub_no_sep {c : Char} {s : Str} (h : c ∉ s) :
    splitOnSub [c] s = [s] := by
  rw [splitOnSub, if_neg (by simp)]
  exact splitOnSubAux_of_none (findSub_of_not_mem h) _

theorem splitOnSub_cons_sep {c : Char} {a b : Str} (h : c ∉ a) :
    splitOnSub [c] (a ++ c :: b) = a :: splitOnSub [c] b := by
  rw [splitOnSub, if_neg (by simp), splitOnSub, if_neg (by simp)]
  have hlen : (a ++ c :: b).length = (a.length + b.length) + 1 := by
    simp [List.length_append]
    omega
  rw [hlen, splitOnSubAux, findSub_single_of_prefix h]
  show (a ++ c :: b).take a.length
      :: splitOnSubAux [c] (a.length + b.length) ((a ++ c :: b).drop (a.length + 1))
      = a :: splitOnSubAux [c] b.length b
  have htake : (a ++ c :: b).take a.length = a := List.take_left a (c :: b)
  have hdrop : (a ++ c :: b).drop (a.length + 1) = b := by
    have heq : a ++ c :: b = (a ++ [c]) ++ b := by simp
    have hlen2 : (a ++ [c]).length = a.length + 1 := by simp
    rw [heq, ← hlen2]
    exact List.drop_left _ _
  rw [htake, hdrop]
  exact congrArg _ (splitOnSubAux_congr (by simp) _ _ _ (by omega) (by omega))

theorem stripDotsAux_eq_self {p : Str} (fuel : Nat)
    (h : ¬ (pstr "../").isPrefixOf p = true) :
    NpmBundler.stripDotsAux fuel p = p := by
  cases fuel with
  | zero => rfl
  | succ n => rw [NpmBundler.stripDotsAux, if_neg h]

theorem stripDots_eq_self {p : Str} (h : ¬ (pstr "../").isPrefixOf p = true) :
    NpmBundler.stripDots p = p :=
  stripDotsAux_eq_self _ h

theorem stripDotsAux_no_dots :
    ∀ (fuel : Nat) (p : Str), p.length ≤ fuel →
      ¬ (pstr "../").isPrefixOf (NpmBundler.stripDotsAux fuel p) = true := by
  intro fuel
  induction fuel with
  | zero =>
    intro p hp
    have hs : p = [] := List.eq_nil_of_length_eq_zero (Nat.le_zero.mp hp)
    subst hs
    intro hcon
    exact absurd hcon (by decide)
  | succ n ih =>
    intro p hp
    by_cases h : (pstr "../").isPrefixOf p = true
    · rw [NpmBundler.stripDotsAux, if_pos h]
      have h3 : 3 ≤ p.length := prefix_length_le h
      exact ih _ (by rw [List.length_drop]; omega)
    · rw [NpmBundler.stripDotsAux, if_neg h]
      exact h

theorem stripDots_no_dots (p : Str) :
    ¬ (pstr "../").isPrefixOf (NpmBundler.stripDots p) = true :=
  stripDotsAux_no_dots _ _ (Nat.le_refl _)

theorem charLtB_asymm_eq {a b : Char} (h1 : charLtB a b = false)
    (h2 : charLtB b a = false) : a = b := by
  unfold charLtB at h1 h2
  have n1 : ¬ a.val.toNat < b.val.toNat := of_decide_eq_false h1
  have n2 : ¬ b.val.toNat < a.val.toNat := of_decide_eq_false h2
  exact Char.ext (UInt32.ext (by omega))

theorem strLtB_asymm_eq : ∀ {a b : Str}, strLtB a b = false →
    strLtB b a = false → a = b := by
  intro a
  induction a with
  | nil =>
    intro b h1 h2
    cases b with
    | nil => rfl
    | cons y ys => simp [strLtB] at h1
  | cons x xs ih =>
    intro b h1 h2
    cases b with
    | nil => simp [strLtB] at h2
    | cons y ys =>
      rw [strLtB] at h1
      rw [strLtB] at h2
      by_cases hxy : charLtB x y = true
      · rw [if_pos hxy] at h1; cases h1
      · by_cases hyx : charLtB y x = true
        · rw [if_pos hyx] at h2; cases h2
        · have hx := eq_false_of_ne_true hxy
          have hy := eq_false_of_ne_true hyx
          have hchar : x = y := charLtB_asymm_eq hx hy
          rw [if_neg hxy, if_neg hyx] at h1
          rw [if_neg hyx, if_neg hxy] at h2
          exact by rw [hchar, ih h1 h2]

theorem strLtB_of_ne_of_not_lt {a b : Str} (hne : a ≠ b)
    (h : strLtB a b = false) : strLtB b a = true := by
  by_cases hba : strLtB b a = true
  · exact hba
  · exact absurd (strLtB_asymm_eq h (eq_false_of_ne_true hba)) hne

theorem head?_insertV (v : Str) (l : List Str) :
    (insertV v l).head? = some v ∨ (insertV v l).head? = l.head? := by
  cases l with
  | nil => left; rfl
  | cons x xs =>
    rw [insertV]
    by_cases h1 : v = x
    · right; rw [if_pos h1]
    · rw [if_neg h1]
      by_cases h2 : strLtB v x = true
      · left; rw [if_pos h2]; rfl
      · right; rw [if_neg h2]; rfl

theorem sortedV_insertV {l : List Str} (v : Str) (h : SortedV l) :
    SortedV (insertV v l) := by
  induction l with
  | nil => exact List.chain'_singleton v
  | cons x xs ih =>
    rw [insertV]
    by_cases h1 : v = x
    · rw [if_pos h1]; exact h
    · rw [if_neg h1]
      by_cases h2 : strLtB v x = true
      · rw [if_pos h2]
        exact List.chain'_cons.mpr ⟨h2, h⟩
      · rw [if_neg h2]
        have hxs : SortedV xs := h.tail
        have hxv : strLtB x v = true :=
          strLtB_of_ne_of_not_lt h1 (eq_false_of_ne_true h2)
        refine List.chain'_cons'.mpr ⟨?_, ih hxs⟩
        intro y hy
        rcases head?_insertV v xs with hh | hh
        · rw [hh] at hy
          cases hy
          exact hxv
        · rw [hh] at hy
          exact (List.chain'_cons'.mp h).1 y hy

theorem sortedV_sortDedup (l : List Str) : SortedV (sortDedup l) := by
  induction l with
  | nil => exact List.chain'_nil
  | cons x xs ih => exact sortedV_insertV x ih

theorem strLtB_irrefl : ∀ a : Str, strLtB a a = false := by
  intro a
  induction a with
  | nil => rfl
  | cons x xs ih =>
    rw [strLtB]
    have : charLtB x x = false := by
      unfold charLtB
      exact decide_eq_false (by omega)
    rw [if_neg (by rw [this]; exact Bool.false_ne_true), if_neg (by rw [this]; exact Bool.false_ne_true)]
    exact ih

theorem sortDedup_eq_self : ∀ {l : List Str}, SortedV l → sortDedup l = l := by
  intro l
  induction l with
  | nil => intro _; rfl
  | cons x xs ih =>
    intro h
    show insertV x (sortDedup xs) = x :: xs
    rw [ih h.tail]
    cases xs with
    | nil => rfl
    | cons y ys =>
      have hxy : strLtB x y = true := (List.chain'_cons.mp h).1
      have hne : x ≠ y := by
        intro hc
        rw [hc] at hxy
        rw [strLtB_irrefl] at hxy
        cases hxy
      rw [insertV, if_neg hne, if_pos hxy]

theorem insertV_idem (v : Str) : ∀ l : List Str,
    insertV v (insertV v l) = insertV v l := by
  intro l
  induction l with
  | nil =>
    show insertV v [v] = [v]
    rw [insertV, if_pos rfl]
  | cons x xs ih =>
    rw [insertV]
    by_cases h1 : v = x
    · rw [if_pos h1, insertV, if_pos h1]
    · rw [if_neg h1]
      by_cases h2 : strLtB v x = true
      · rw [if_pos h2, insertV, if_pos rfl]
      · rw [if_neg h2, insertV, if_neg h1, if_neg h2, ih]

theorem mem_insertV_self (v : Str) : ∀ l : List Str, v ∈ insertV v l := by
  intro l
  induction l with
  | nil => exact List.mem_singleton.mpr rfl
  | cons x xs ih =>
    rw [insertV]
    by_cases h1 : v = x
    · rw [if_pos h1, h1]
      exact List.mem_cons_self _ _
    · rw [if_neg h1]
      by_cases h2 : strLtB v x = true
      · rw [if_pos h2]
        exact List.mem_cons_self _ _
      · rw [if_neg h2]
        exact List.mem_cons_of_mem _ ih

theorem mem_insertV_of_mem {w : Str} (v : Str) : ∀ {l : List Str}, w ∈ l →
    w ∈ insertV v l := by
  intro l
  induction l with
  | nil => intro h; cases h
  | cons x xs ih =>
    intro h
    rw [insertV]
    by_cases h1 : v = x
    · rw [if_pos h1]; exact h
    · rw [if_neg h1]
      by_cases h2 : strLtB v x = true
      · rw [if_pos h2]
        exact List.mem_cons_of_mem _ h
      · rw [if_neg h2]
        rcases List.mem_cons.mp h with hx | hxs
        · rw [hx]; exact List.mem_cons_self _ _
        · exact List.mem_cons_of_mem _ (ih hxs)

theorem mem_sortDedup_of_mem {w : Str} : ∀ {l : List Str}, w ∈ l →
    w ∈ sortDedup l := by
  intro l
  induction l with
  | nil => intro h; cases h
  | cons x xs ih =>
    intro h
    show w ∈ insertV x (sortDedup xs)
    rcases List.mem_cons.mp h with hx | hxs
    · rw [hx]; exact mem_insertV_self _ _
    · exact mem_insertV_of_mem _ (ih hxs)

theorem sortDedup_cons (v : Str) (l : List Str) :
    sortDedup (v :: l) = insertV v (sortDedup l) := rfl

theorem sortDedup_insert_twice (v : Str) (l : List Str) :
    sortDedup (v :: sortDedup (v :: l)) = sortDedup (v :: l) := by
  rw [sortDedup_cons v (sortDedup (v :: l)),
    sortDedup_eq_self (sortedV_sortDedup (v :: l)), sortDedup_cons,
    insertV_idem]

theorem singleton_isSuffixOf_concat (c : Char) (y : Str) :
    ([c] : Str).isSuffixOf (y ++ [c]) = true := by
  simp [List.isSuffixOf, List.reverse_append, List.isPrefixOf]

theorem resolveStep1_placeholder (content : Str) (env : Str → Option Str) :
    resolveStep1 ((phOpen ++ content) ++ phClose) env
      = match splitOnFirst (pstr ":-") content with
        | some (varName, dfltValue) => (env varName).getD dfltValue
        | none => (env content).getD (pstr "1.0.0") := by
  have hshape : (phOpen ++ content) ++ phClose
      = '$' :: '{' :: (content ++ ['}']) := by
    simp [phOpen, phClose]
  have hpre : phOpen.isPrefixOf ('$' :: '{' :: (content ++ ['}'])) = true := by
    simp [phOpen, List.isPrefixOf]
  have hsuf : phClose.isSuffixOf ('$' :: '{' :: (content ++ ['}'])) = true := by
    have : '$' :: '{' :: (content ++ ['}']) = ('$' :: '{' :: content) ++ ['}'] := by
      simp
    rw [this]
    exact singleton_isSuffixOf_concat '}' _
  rw [hshape, resolveStep1, if_pos (by rw [hpre, hsuf]; rfl)]
  have hcontent : (('$' :: '{' :: (content ++ ['}'])).drop 2).dropLast = content := by
    show (content ++ ['}']).dropLast = content
    exact List.dropLast_concat
  rw [hcontent]

theorem workspaceLoop_ok (w : NpmWorld) :
    ∀ ts : List Str, (NpmPublisher.workspaceLoop w ts).ok
      = ts.all (fun t => !w.hasPackageJson t || w.installOk t) := by
  intro ts
  induction ts with
  | nil => rfl
  | cons t rest ih =>
    rw [NpmPublisher.workspaceLoop]
    by_cases h1 : w.hasPackageJson t = true
    · by_cases h2 : w.installOk t = true
      · simp [h1, h2, ih]
      · simp [h1, Bool.eq_false_iff.mpr h2]
    · simp [Bool.eq_false_iff.mpr h1, ih]

theorem workspaceLoop_installed (w : NpmWorld) :
    ∀ ts : List Str, (NpmPublisher.workspaceLoop w ts).installed
      = ts.filter (fun t => w.hasPackageJson t && w.installOk t) := by
  intro ts
  induction ts with
  | nil => rfl
  | cons t rest ih =>
    rw [NpmPublisher.workspaceLoop]
    by_cases h1 : w.hasPackageJson t = true
    · by_cases h2 : w.installOk t = true
      · simp [h1, h2, ih]
      · simp [h1, Bool.eq_false_iff.mpr h2, ih]
    · simp [Bool.eq_false_iff.mpr h1, ih]

theorem copyPyFiles_copied (fs : Str → Bool) :
    ∀ files : List Str, (WheelBuilder.copyPyFiles fs files).1
      = (files.filter fs).map (fun f => (f, WheelBuilder.strip_bazel_path f)) := by
  intro files
  induction files with
  | nil => rfl
  | cons f rest ih =>
    rw [WheelBuilder.copyPyFiles]
    by_cases h : fs f = true
    · simp [h, ih]
    · simp [Bool.eq_false_iff.mpr h, ih]

theorem copyPyFiles_warns (fs : Str → Bool) :
    ∀ files : List Str, (WheelBuilder.copyPyFiles fs files).2
      = (files.filter (fun f => !fs f)).map
          (fun f => pstr "  WARNING: Python file not found: " ++ f) := by
  intro files
  induction files with
  | nil => rfl
  | cons f rest ih =>
    rw [WheelBuilder.copyPyFiles]
    by_cases h : fs f = true
    · simp [h, ih]
    · simp [Bool.eq_false_iff.mpr h, ih]

theorem copyProtoSources_isOk (fs : Str → Bool) :
    ∀ specs : List Str, (ProtoLoaderPublisher.copyProtoSources fs specs).isOk
      = specs.all (fun s => fs (ProtoLoaderPublisher.specSrc s)) := by
  intro specs
  induction specs with
  | nil => rfl
  | cons s rest ih =>
    rw [ProtoLoaderPublisher.copyProtoSources]
    by_cases h : fs (ProtoLoaderPublisher.specSrc s) = true
    · rw [if_pos h]
      cases hr : ProtoLoaderPublisher.copyProtoSources fs rest with
      | ok l =>
        rw [hr] at ih
        simp [Except.map, Except.isOk, Except.toBool, h, ← ih]
      | error e =>
        rw [hr] at ih
        simp [Except.map, Except.isOk, Except.toBool, h, ← ih]
    · rw [if_neg h]
      simp [Except.isOk, Except.toBool, Bool.eq_false_iff.mpr h]

theorem withSuffixEmpty_subset (f : Str) :
    NpmBundler.withSuffixEmpty f ⊆ f := by
  unfold NpmBundler.withSuffixEmpty
  dsimp only
  repeat' split
  all_goals first
    | exact List.take_subset _ _
    | exact fun _ h => h

theorem exportLine_no_newline {f : Str} (h : '\n' ∉ f) :
    '\n' ∉ NpmBundler.exportLine f := by
  intro hc
  unfold NpmBundler.exportLine at hc
  dsimp only at hc
  rcases List.mem_append.mp hc with hA | hB
  · rcases List.mem_append.mp hA with hC | hD
    · rcases List.mem_append.mp hC with hE | hF
      · rcases List.mem_append.mp hE with hG | hH
        · exact absurd hG (by decide)
        · rcases List.mem_map.mp hH with ⟨x, hx, hxe⟩
          split at hxe
          · exact absurd hxe (by decide)
          · exact h (hxe ▸ hx)
      · exact absurd hF (by decide)
    · rcases List.mem_append.mp hD with hG | hH
      · exact absurd hG (by decide)
      · rcases List.mem_map.mp hH with ⟨x, hx, hxe⟩
        split at hxe
        · exact absurd hxe (by decide)
        · exact h (hxe ▸ hx)
  · exact absurd hB (by decide)

theorem stripBuildMarkers_eq_self {p : Str}
    (h1 : ¬ (pstr "bazel-out/").isPrefixOf p = true)
    (h2 : ¬ (pstr "external/").isPrefixOf p = true) :
    NpmBundler.stripBuildMarkers p = p := by
  rw [NpmBundler.stripBuildMarkers, if_neg h1, if_neg h2]

theorem stripBuildMarkers_marker {p : Str} {i : Nat}
    (h1 : (pstr "bazel-out/").isPrefixOf p = true)
    (h2 : findSub (pstr "/bin/") p = some i) (h3 : 0 < i) :
    NpmBundler.stripBuildMarkers p = p.drop (i + 5) := by
  rw [NpmBundler.stripBuildMarkers, if_pos h1, h2]
  show (if 0 < i then p.drop (i + 5) else p) = p.drop (i + 5)
  rw [if_pos h3]

theorem stripVirtual_split {p p0 aliasSeg rest : Str}
    (hsplit : splitOnSub (pstr "_virtual_imports/") p = [p0, aliasSeg ++ '/' :: rest])
    (hne : aliasSeg ≠ []) (hslash : ∀ c ∈ aliasSeg, c ≠ '/') :
    WheelBuilder.stripVirtual p = rest := by
  unfold WheelBuilder.stripVirtual
  rw [hsplit]
  have hsep : pstr "/" = ['/'] := rfl
  have hmem : '/' ∉ aliasSeg := fun hm => hslash '/' hm rfl
  have hf : findSub (pstr "/") (aliasSeg ++ '/' :: rest) = some aliasSeg.length := by
    rw [hsep]
    exact findSub_single_of_prefix hmem
  show (match findSub (pstr "/") (aliasSeg ++ '/' :: rest) with
    | some slashIdx =>
        if 0 < slashIdx then (aliasSeg ++ '/' :: rest).drop (slashIdx + 1) else p
    | none => p) = rest
  rw [hf]
  show (if 0 < aliasSeg.length then (aliasSeg ++ '/' :: rest).drop (aliasSeg.length + 1) else p)
      = rest
  have hpos : 0 < aliasSeg.length := List.length_pos.mpr hne
  rw [if_pos hpos]
  have heq : aliasSeg ++ '/' :: rest = (aliasSeg ++ ['/']) ++ rest := by simp
  have hlen2 : (aliasSeg ++ ['/']).length = aliasSeg.length + 1 := by simp
  rw [heq, ← hlen2]
  exact List.drop_left _ _

theorem splitOnSub_joinWith_newline :
    ∀ parts : List Str, parts ≠ [] → (∀ p ∈ parts, '\n' ∉ p) →
      splitOnSub (pstr "\n") (joinWith (pstr "\n") parts) = parts := by
  intro parts
  induction parts with
  | nil => intro h; exact absurd rfl h
  | cons p rest ih =>
    intro _ hnl
    have hp : '\n' ∉ p := hnl p (List.mem_cons_self _ _)
    cases rest with
    | nil => exact splitOnSub_no_sep hp
    | cons q qs =>
      have hjoin : joinWith (pstr "\n") (p :: q :: qs)
          = p ++ '\n' :: joinWith (pstr "\n") (q :: qs) := by
        rw [joinWith]
        simp [pstr]
      rw [hjoin]
      have : splitOnSub (pstr "\n") (p ++ '\n' :: joinWith (pstr "\n") (q :: qs))
          = p :: splitOnSub (pstr "\n") (joinWith (pstr "\n") (q :: qs)) :=
        splitOnSub_cons_sep hp
      rw [this, ih (by simp) (fun x hx => hnl x (List.mem_cons_of_mem _ hx))]

/-! ### Claim theorems -/

/-- C1, counterexample: in workspace mode with two targets of which `t2`
is missing its `package.json`, `publish_npm_package` installs into `t1` and
returns overall success (`True`), not failure — the missing-manifest target
is skipped with a warning and never flips `all_ok`. -/
theorem workspace_missing_manifest_success :
    (NpmPublisher.publish_npm_package envWs2 worldWs2).ok = true
    ∧ (NpmPublisher.publish_npm_package envWs2 worldWs2).installed = [pstr "t1"] := by
  decide

/-- C1, amended: in workspace mode each target is attempted independently;
the overall result is failure exactly when some target that has a
`package.json` fails its install, the installed targets are exactly those
with a `package.json` and a successful install, and a target missing its
package manifest is skipped without affecting the overall result (so the
two-target scenario of the claim yields overall success). -/
theorem workspace_partial_failure_semantics :
    ∀ (w : NpmWorld) (ts : List Str) (env : NpmEnv),
      (NpmPublisher.workspaceLoop w ts).ok
          = ts.all (fun t => !w.hasPackageJson t || w.installOk t)
      ∧ (NpmPublisher.workspaceLoop w ts).installed
          = ts.filter (fun t => w.hasPackageJson t && w.installOk t)
      ∧ (envGet env.npmPublishMode (pstr "link") = pstr "workspace" →
          w.extractOk = true →
          pyStrip (envGet env.jsTargets []) ≠ [] →
          NpmPublisher.publish_npm_package env w
            = NpmPublisher.workspaceLoop w (parseTargets (envGet env.jsTargets []))) := by
  intro w ts env
  refine ⟨workspaceLoop_ok w ts, workspaceLoop_installed w ts, ?_⟩
  intro hmode hex htgts
  rw [NpmPublisher.publish_npm_package]
  rw [hex]
  simp only [Bool.not_true, Bool.false_eq_true, if_false, hmode]
  rw [if_neg (by decide : ¬ (pstr "workspace" = pstr "skip")),
    if_neg (by decide : ¬ (pstr "workspace" = pstr "link")),
    if_neg (by decide : ¬ (pstr "workspace" = pstr "local-registry")),
    if_neg (by decide : ¬ (pstr "workspace" = pstr "file")),
    if_neg (by decide : ¬ (pstr "workspace" = pstr "pack"))]
  simp only [if_true]
  rw [if_neg htgts]

/-- C1, witness: the amended theorem applied to the concrete two-target
scenario. -/
theorem workspace_partial_failure_semantics_witness :
    NpmPublisher.publish_npm_package envWs2 worldWs2
      = NpmPublisher.workspaceLoop worldWs2 (parseTargets (pstr "t1,t2")) :=
  (workspace_partial_failure_semantics worldWs2 [] envWs2).2.2
    (by decide) (by decide) (by decide)

/-- C2, counterexample: the path `bazel-out/k8/bin/../foo` contains the
sandbox-output marker; the suffix after the marker is `../foo`, but
normalization returns `foo` — the leading parent-directory segment of the
suffix is stripped as well, so the result is not exactly the suffix. -/
theorem sandbox_marker_not_exact_suffix :
    (pstr "bazel-out/").isPrefixOf (pstr "bazel-out/k8/bin/../foo") = true
    ∧ findSub (pstr "/bin/") (pstr "bazel-out/k8/bin/../foo") = some 12
    ∧ (pstr "bazel-out/k8/bin/../foo").drop (12 + 5) = pstr "../foo"
    ∧ NpmBundler.strip_bazel_path (pstr "bazel-out/k8/bin/../foo") = pstr "foo"
    ∧ NpmBundler.strip_bazel_path (pstr "bazel-out/k8/bin/../foo") ≠ pstr "../foo" := by
  decide

/-- C2, amended: for every path starting with `bazel-out/` whose first
`/bin/` marker is at index `i > 0`, normalization returns the suffix after
the marker with leading `../` segments then removed; it returns exactly the
suffix whenever the suffix does not start with `../`. -/
theorem sandbox_marker_strip :
    ∀ (p : Str) (i : Nat),
      (pstr "bazel-out/").isPrefixOf p = true →
      findSub (pstr "/bin/") p = some i →
      0 < i →
      NpmBundler.strip_bazel_path p = NpmBundler.stripDots (p.drop (i + 5))
      ∧ (¬ (pstr "../").isPrefixOf (p.drop (i + 5)) = true →
          NpmBundler.strip_bazel_path p = p.drop (i + 5)) := by
  intro p i h1 h2 h3
  have hb := stripBuildMarkers_marker h1 h2 h3
  constructor
  · rw [NpmBundler.strip_bazel_path, hb]
  · intro hdots
    rw [NpmBundler.strip_bazel_path, hb, stripDots_eq_self hdots]

/-- C2, witness: the amended theorem applied to a concrete marker path. -/
theorem sandbox_marker_strip_witness :
    NpmBundler.strip_bazel_path (pstr "bazel-out/k8-fastbuild/bin/foo/bar.proto")
      = (pstr "bazel-out/k8-fastbuild/bin/foo/bar.proto").drop (22 + 5) :=
  (sandbox_marker_strip _ 22 (by decide) (by decide) (by decide)).2 (by decide)

/-- C3, counterexample: `bazel-out/k8/bin/external/a/b` contains the
sandbox-output marker, yet normalization is not idempotent on it: the first
pass yields `external/a/b` and the second pass strips the `external/`
prefix again, yielding `a/b`. -/
theorem normalize_not_idempotent :
    (pstr "bazel-out/").isPrefixOf (pstr "bazel-out/k8/bin/external/a/b") = true
    ∧ containsSub (pstr "/bin/") (pstr "bazel-out/k8/bin/external/a/b") = true
    ∧ NpmBundler.strip_bazel_path
          (NpmBundler.strip_bazel_path (pstr "bazel-out/k8/bin/external/a/b"))
        ≠ NpmBundler.strip_bazel_path (pstr "bazel-out/k8/bin/external/a/b") := by
  decide

/-- C3, amended: normalization is idempotent on every path whose normalized
form does not itself start with a `bazel-out/` or `external/` marker prefix
(the normalized form never starts with `../`, so no extra condition for
that rule is needed). -/
theorem normalize_idempotent_on_clean :
    ∀ p : Str,
      ¬ (pstr "bazel-out/").isPrefixOf (NpmBundler.strip_bazel_path p) = true →
      ¬ (pstr "external/").isPrefixOf (NpmBundler.strip_bazel_path p) = true →
      NpmBundler.strip_bazel_path (NpmBundler.strip_bazel_path p)
        = NpmBundler.strip_bazel_path p := by
  intro p h1 h2
  have hdots : ¬ (pstr "../").isPrefixOf (NpmBundler.strip_bazel_path p) = true :=
    stripDots_no_dots _
  calc NpmBundler.strip_bazel_path (NpmBundler.strip_bazel_path p)
      = NpmBundler.stripDots
          (NpmBundler.stripBuildMarkers (NpmBundler.strip_bazel_path p)) := rfl
    _ = NpmBundler.stripDots (NpmBundler.strip_bazel_path p) := by
        rw [stripBuildMarkers_eq_self h1 h2]
    _ = NpmBundler.strip_bazel_path p := stripDots_eq_self hdots

/-- C3, witness: idempotence at a concrete marker path whose normal form is
clean. -/
theorem normalize_idempotent_on_clean_witness :
    NpmBundler.strip_bazel_path
        (NpmBundler.strip_bazel_path (pstr "bazel-out/k8/bin/foo/bar.proto"))
      = NpmBundler.strip_bazel_path (pstr "bazel-out/k8/bin/foo/bar.proto") :=
  normalize_idempotent_on_clean _ (by decide) (by decide)

/-- C4, counterexample: in workspace mode with the target-list variable
`JS_TARGETS` unset, `publish_npm_package` is not fatal: it prints a warning
and returns success (the code comments this branch `Non-fatal`). -/
theorem workspace_missing_targets_nonfatal :
    (NpmPublisher.publish_npm_package envWsUnset worldTrivial).ok = true
    ∧ NpmPublisher.publish_npm_package envWsUnset worldTrivial
        = ⟨true, [pstr "Warning: NPM_PUBLISH_MODE=workspace but JS_TARGETS not set"], []⟩ := by
  decide

/-- C4, amended: in registry mode a missing registry URL or token is fatal
and the error names the missing variable (`NPM_REGISTRY_URL`, resp.
`NPM_REGISTRY_TOKEN`); in workspace mode a missing `JS_TARGETS` produces a
warning naming the variable but the operation reports success. -/
theorem missing_config_fatal_naming :
    ∀ (w : NpmWorld) (jt t1 t2 : Option Str) (u : Str),
      w.extractOk = true →
      (((NpmPublisher.publish_npm_package ⟨some (pstr "registry"), jt, none, t1, t2⟩ w).ok = false
        ∧ ∃ m ∈ (NpmPublisher.publish_npm_package ⟨some (pstr "registry"), jt, none, t1, t2⟩ w).msgs,
            containsSub (pstr "NPM_REGISTRY_URL") m = true)
      ∧ (u ≠ [] →
          (NpmPublisher.publish_npm_package ⟨some (pstr "registry"), jt, some u, none, none⟩ w).ok = false
          ∧ ∃ m ∈ (NpmPublisher.publish_npm_package ⟨some (pstr "registry"), jt, some u, none, none⟩ w).msgs,
              containsSub (pstr "NPM_REGISTRY_TOKEN") m = true)
      ∧ ((NpmPublisher.publish_npm_package ⟨some (pstr "workspace"), none, t1, t2, jt⟩ w).ok = true
          ∧ ∃ m ∈ (NpmPublisher.publish_npm_package ⟨some (pstr "workspace"), none, t1, t2, jt⟩ w).msgs,
              containsSub (pstr "JS_TARGETS") m = true)) := by
  intro w jt t1 t2 u hex
  rcases w with ⟨we, wl, wlo, wh, wi, wr⟩
  simp only at hex
  subst hex
  refine ⟨⟨rfl, ⟨_, List.mem_cons_self _ _, by decide⟩⟩, ?_, rfl,
    ⟨_, List.mem_cons_self _ _, by decide⟩⟩
  intro hu
  have hred : NpmPublisher.publish_npm_package
      ⟨some (pstr "registry"), jt, some u, none, none⟩
      ⟨true, wl, wlo, wh, wi, wr⟩
      = if u = [] then
          ⟨false, [pstr "Error: NPM_REGISTRY_URL env var required for registry mode"], []⟩
        else
          ⟨false, [pstr "Error: NPM_REGISTRY_TOKEN or REGISTRY_TOKEN env var required for registry mode"], []⟩ := by
    rfl
  rw [hred, if_neg hu]
  exact ⟨rfl, ⟨_, List.mem_cons_self _ _, by decide⟩⟩

/-- C4, witness: the amended theorem applied to concrete environments. -/
theorem missing_config_fatal_naming_witness :
    (NpmPublisher.publish_npm_package
        ⟨some (pstr "registry"), none, none, none, none⟩ worldTrivial).ok = false
    ∧ (NpmPublisher.publish_npm_package
        ⟨some (pstr "registry"), none, some (pstr "u"), none, none⟩ worldTrivial).ok = false
    ∧ (NpmPublisher.publish_npm_package
        ⟨some (pstr "workspace"), none, none, none, none⟩ worldTrivial).ok = true := by
  have h := missing_config_fatal_naming worldTrivial none none none (pstr "u") rfl
  exact ⟨h.1.1, (h.2.1 (by decide)).1, h.2.2.1⟩

/-- C5: after `update_local_maven_metadata` the ledger's `latest` and
`release` pointers both equal the version just recorded, for every prior
state; in particular recording `1.0.0` then `0.9.0` leaves
`latest = 0.9.0` (publish recency, not semantic-version order). -/
theorem record_version_sets_latest :
    ∀ (st : Option MavenLedger) (v : Str),
      (PublisherUtils.update_local_maven_metadata st v).latest = v
      ∧ (PublisherUtils.update_local_maven_metadata st v).release = v
      ∧ (PublisherUtils.update_local_maven_metadata
          (some (PublisherUtils.update_local_maven_metadata none (pstr "1.0.0")))
          (pstr "0.9.0")).latest = pstr "0.9.0" := by
  intro st v
  exact ⟨rfl, rfl, rfl⟩

/-- C6: `update_local_maven_metadata` has set semantics and never removes
versions: recording the same version twice leaves the stored version list
(and hence its size) unchanged after the second call, and every previously
stored version is still stored after any call. -/
theorem record_version_set_semantics :
    ∀ (st : Option MavenLedger) (v w : Str),
      (PublisherUtils.update_local_maven_metadata
          (some (PublisherUtils.update_local_maven_metadata st v)) v).versions
        = (PublisherUtils.update_local_maven_metadata st v).versions
      ∧ (PublisherUtils.update_local_maven_metadata
          (some (PublisherUtils.update_local_maven_metadata st v)) v).versions.length
        = (PublisherUtils.update_local_maven_metadata st v).versions.length
      ∧ (w ∈ ledgerVersions st →
          w ∈ (PublisherUtils.update_local_maven_metadata st v).versions) := by
  intro st v w
  refine ⟨sortDedup_insert_twice v (ledgerVersions st),
    congrArg List.length (sortDedup_insert_twice v (ledgerVersions st)), ?_⟩
  intro hw
  exact mem_sortDedup_of_mem (List.mem_cons_of_mem _ hw)

/-- C6, witness: the membership part applied to a ledger that already
stores `1.0.0` while `0.9.0` is recorded. -/
theorem record_version_set_semantics_witness :
    pstr "1.0.0" ∈ (PublisherUtils.update_local_maven_metadata
        (some ⟨[pstr "1.0.0"], pstr "1.0.0", pstr "1.0.0"⟩) (pstr "0.9.0")).versions :=
  (record_version_set_semantics
      (some ⟨[pstr "1.0.0"], pstr "1.0.0", pstr "1.0.0"⟩)
      (pstr "0.9.0") (pstr "1.0.0")).2.2 (by decide)

/-- C7: a version of shape dollar-brace `VAR:-default` brace resolves to
the environment value of `VAR` when set and to `default` when unset; any
version still containing the placeholder opener after resolution falls
back to `1.0.0` with a warning; and the resolved version never retains a
placeholder opener (resolution is total, never failing the build). -/
theorem version_placeholder_resolution :
    (∀ (content varName dflt val : Str) (env : Str → Option Str),
        splitOnFirst (pstr ":-") content = some (varName, dflt) →
        env varName = some val →
        containsSub phOpen val = false →
        resolveVersion ((phOpen ++ content) ++ phClose) env = (val, false))
    ∧ (∀ (content varName dflt : Str) (env : Str → Option Str),
        splitOnFirst (pstr ":-") content = some (varName, dflt) →
        env varName = none →
        containsSub phOpen dflt = false →
        resolveVersion ((phOpen ++ content) ++ phClose) env = (dflt, false))
    ∧ (∀ (v : Str) (env : Str → Option Str),
        containsSub phOpen (resolveStep1 v env) = true →
        resolveVersion v env = (pstr "1.0.0", true))
    ∧ (∀ (v : Str) (env : Str → Option Str),
        containsSub phOpen (resolveVersion v env).1 = false) := by
  refine ⟨?_, ?_, ?_, ?_⟩
  · intro content varName dflt val env hsplit henv hval
    have h1 : resolveStep1 ((phOpen ++ content) ++ phClose) env
        = (env varName).getD dflt := by
      rw [resolveStep1_placeholder, hsplit]
    unfold resolveVersion
    rw [h1, henv]
    simp only [Option.getD_some]
    rw [if_neg (by rw [hval]; exact Bool.false_ne_true)]
  · intro content varName dflt env hsplit henv hdflt
    have h1 : resolveStep1 ((phOpen ++ content) ++ phClose) env
        = (env varName).getD dflt := by
      rw [resolveStep1_placeholder, hsplit]
    unfold resolveVersion
    rw [h1, henv]
    simp only [Option.getD_none]
    rw [if_neg (by rw [hdflt]; exact Bool.false_ne_true)]
  · intro v env hcon
    unfold resolveVersion
    rw [if_pos hcon]
  · intro v env
    by_cases hc : containsSub phOpen (resolveStep1 v env) = true
    · unfold resolveVersion
      rw [if_pos hc]
      decide
    · unfold resolveVersion
      rw [if_neg hc]
      exact eq_false_of_ne_true hc

/-- C7, witness: resolution of the placeholder `FOO:-1.2.3` against an
environment with `FOO=9.9.9` and against an empty environment. -/
theorem version_placeholder_resolution_witness :
    resolveVersion ((phOpen ++ pstr "FOO:-1.2.3") ++ phClose) envFoo
      = (pstr "9.9.9", false)
    ∧ resolveVersion ((phOpen ++ pstr "FOO:-1.2.3") ++ phClose) (fun _ => none)
      = (pstr "1.2.3", false) :=
  ⟨version_placeholder_resolution.1 (pstr "FOO:-1.2.3") (pstr "FOO")
      (pstr "1.2.3") (pstr "9.9.9") envFoo (by decide) (by decide) (by decide),
    version_placeholder_resolution.2.1 (pstr "FOO:-1.2.3") (pstr "FOO")
      (pstr "1.2.3") (fun _ => none) (by decide) rfl (by decide)⟩

/-- C8, counterexample: on a path in which the virtual-import marker occurs
twice, `a/_virtual_imports/alias/_virtual_imports/b/c`, normalization
returns the empty path — not the remainder after the marker and alias under
either reading of the claimed shape (`_virtual_imports/b/c` or `c`) —
because the code keeps only the chunk between the first two marker
occurrences. -/
theorem virtual_import_double_marker :
    WheelBuilder.strip_bazel_path (pstr "a/_virtual_imports/alias/_virtual_imports/b/c") = []
    ∧ WheelBuilder.strip_bazel_path (pstr "a/_virtual_imports/alias/_virtual_imports/b/c")
        ≠ pstr "_virtual_imports/b/c"
    ∧ WheelBuilder.strip_bazel_path (pstr "a/_virtual_imports/alias/_virtual_imports/b/c")
        ≠ pstr "c" := by
  decide

/-- C8, amended: for every path without a build-output, external, or
parent-dir prefix, in which the virtual-import marker occurs exactly once
and is followed by a non-empty slash-free alias segment and a remainder,
normalization returns exactly the remainder. -/
theorem virtual_import_strip :
    ∀ (p p0 aliasSeg rest : Str),
      ¬ (pstr "bazel-out/").isPrefixOf p = true →
      ¬ (pstr "external/").isPrefixOf p = true →
      ¬ (pstr "../").isPrefixOf p = true →
      splitOnSub (pstr "_virtual_imports/") p = [p0, aliasSeg ++ '/' :: rest] →
      aliasSeg ≠ [] →
      (∀ c ∈ aliasSeg, c ≠ '/') →
      WheelBuilder.strip_bazel_path p = rest := by
  intro p p0 aliasSeg rest h1 h2 h3 hsplit hne hslash
  rw [WheelBuilder.strip_bazel_path, stripBuildMarkers_eq_self h1 h2,
    stripDots_eq_self h3]
  exact stripVirtual_split hsplit hne hslash

/-- C8, witness: the amended theorem applied to a concrete
single-occurrence virtual-import path. -/
theorem virtual_import_strip_witness :
    WheelBuilder.strip_bazel_path (pstr "foo/_virtual_imports/al/x/y.proto")
      = pstr "x/y.proto" :=
  virtual_import_strip _ (pstr "foo/") (pstr "al") (pstr "x/y.proto")
    (by decide) (by decide) (by decide) (by decide) (by decide) (by decide)

/-- C9, counterexample: the proto-loader packager performs no existence
check before copying, so with sources `[missing.proto, a.proto]` of which
only `a.proto` exists, the copy loop aborts with an error at the missing
file (and the existing `a.proto`, which alone would be copied fine, is
never reached) — the staging operation is fatal, not a warning-and-skip. -/
theorem proto_loader_missing_source_aborts :
    ProtoLoaderPublisher.copyProtoSources (fun s => s = pstr "a.proto")
        [pstr "missing.proto", pstr "a.proto"]
      = .error (pstr "missing.proto")
    ∧ ProtoLoaderPublisher.copyProtoSources (fun s => s = pstr "a.proto")
        [pstr "a.proto"]
      = .ok [(pstr "a.proto", pstr "a.proto")] :=
  ⟨rfl, rfl⟩

/-- C9, amended: the wheel builder's staging loop copies exactly the
existing sources (each to its normalized destination), warns about exactly
the missing ones, and always continues; the proto-loader packager instead
succeeds exactly when every listed source exists — one missing source makes
its whole staging operation fail. -/
theorem missing_source_handling :
    ∀ (fs : Str → Bool) (files specs : List Str),
      (WheelBuilder.copyPyFiles fs files).1
        = (files.filter fs).map (fun f => (f, WheelBuilder.strip_bazel_path f))
      ∧ (WheelBuilder.copyPyFiles fs files).2
        = (files.filter (fun f => !fs f)).map
            (fun f => pstr "  WARNING: Python file not found: " ++ f)
      ∧ (ProtoLoaderPublisher.copyProtoSources fs specs).isOk
        = specs.all (fun s => fs (ProtoLoaderPublisher.specSrc s)) :=
  fun fs files specs =>
    ⟨copyPyFiles_copied fs files, copyPyFiles_warns fs files,
      copyProtoSources_isOk fs specs⟩

/-- C10, counterexample: the generated barrel file lists the re-exported
units in the filesystem enumeration order, not lexicographic order: with
enumeration `[b.js, a.js]` the index lists `b` before `a`, and a different
enumeration of the same set yields a different barrel. -/
theorem barrel_order_not_lexicographic :
    NpmBundler.create_subdir_index [pstr "b.js", pstr "a.js"]
      = pstr "export * as b from './b';\nexport * as a from './a';"
    ∧ NpmBundler.create_subdir_index [pstr "b.js", pstr "a.js"]
        ≠ NpmBundler.create_subdir_index [pstr "a.js", pstr "b.js"] := by
  decide

/-- C10, amended: the barrel file contains exactly one export line per
enumerated unit, in the enumeration order handed over by the filesystem
walk — so output is reproducible exactly when that enumeration order is
reproduced, and staging is a deterministic function of the inputs
including that order. -/
theorem barrel_lists_enumeration_order :
    ∀ files : List Str, files ≠ [] → (∀ f ∈ files, '\n' ∉ f) →
      splitOnSub (pstr "\n") (NpmBundler.create_subdir_index files)
        = files.map (fun f => NpmBundler.exportLine (NpmBundler.withSuffixEmpty f)) := by
  intro files hne hnl
  unfold NpmBundler.create_subdir_index
  apply splitOnSub_joinWith_newline
  · intro hmap
    exact hne (List.map_eq_nil_iff.mp hmap)
  · intro p hp
    rcases List.mem_map.mp hp with ⟨f, hf, hfp⟩
    subst hfp
    exact exportLine_no_newline (fun hm => hnl f hf (withSuffixEmpty_subset f hm))

/-- C10, witness: the amended theorem applied to the concrete enumeration
`[b.js, a.js]`. -/
theorem barrel_lists_enumeration_order_witness :
    splitOnSub (pstr "\n") (NpmBundler.create_subdir_index [pstr "b.js", pstr "a.js"])
      = [NpmBundler.exportLine (NpmBundler.withSuffixEmpty (pstr "b.js")),
          NpmBundler.exportLine (NpmBundler.withSuffixEmpty (pstr "a.js"))] :=
  barrel_lists_enumeration_order [pstr "b.js", pstr "a.js"] (by decide) (by decide)

end Protolake

